import Mathlib

/-!
Shallow embedding of `src/hijack/cache_manager.py` (ComfyUI_Model_Cache).

The Python module defines two classes:

* `ModelValidChecker` — wraps one cached result, remembers the resource
  object (`result[0]` when the result is a tuple, else the result itself)
  and a structural signature `key_count` derived from it at construction.
* `ModelCache` — a singleton holding `valid_checker_map : Dict[str, ModelValidChecker]`,
  `lru_cache : list[str]` (least-recently-used first) and `maxsize = CACHE_MAXSIZE = 100`,
  with operations `cached`, `register_model` and `get_result`.

Modelling choices:

* The live resource objects are mutated by code outside the cache, so the
  embedding threads an explicit heap `Heap : Nat → List String` mapping an
  object identity (`ref`) to the current list of names in that object's
  mapping (a Python `dict` / `state_dict()` has pairwise-distinct keys, so
  the length of that list is `len(obj.keys())`).  The runtime type of an
  object (`torch.nn.Module`, `dict`, or anything else) cannot change in
  Python, so it is a fixed tag `RKind` carried by the `Resource` value.
* The Python `Dict[str, ModelValidChecker]` is embedded as an association
  list with the usual dict operations (lookup of the binding, in-place
  overwrite keeping the position, deletion); the key type is kept generic
  (`generate_cache_key` actually returns a `functools._make_key` object,
  not a `str`).
* Operations that can raise (`list.pop(0)` / `del d[k]` / `list.remove`
  / `d[k]`) are embedded in `Option`: `none` is an uncaught Python
  exception.  `ModelCache.get_result` in Python mutates `lru_cache`
  before the `valid_checker_map[model_key]` lookup; that lookup can only
  fail when the two structures are out of sync, which the proved
  invariant rules out, so returning `none` there loses no reachable
  behaviour.
-/

namespace ModelCacheRepo

/-- The runtime type of the resource object held by a checker:
a `torch.nn.Module`, a plain `dict`, or any other (unsupported) type. -/
inductive RKind where
  | module
  | dict
  | unsupported
deriving DecidableEq, Repr

/-- A live resource object: a fixed runtime-type tag and an object
identity used to read its current contents from the heap. -/
structure Resource where
  kind : RKind
  ref : Nat
deriving DecidableEq, Repr

/-- The mutable external state: for each object identity, the current
list of names in its key mapping (`state_dict().keys()` for a Module,
`obj.keys()` for a dict).  Python dict keys are pairwise distinct, so the
length of this list is the key count. -/
def Heap : Type := Nat → List String

/-- A cached payload (`result` in the Python source): either a resource
directly, or a tuple whose first element is the resource and whose
remaining components are arbitrary accompanying values (kept opaque). -/
inductive Payload where
  | direct (r : Resource)
  | tup (r : Resource) (rest : List Nat)
deriving DecidableEq, Repr

/-- `result[0] if isinstance(result, tuple) else result`. -/
def Payload.moduleOf : Payload → Resource
  | .direct r => r
  | .tup r _ => r

/-- `ModelValidChecker.get_latest_key_count`:
`len(self.module.state_dict().keys())` for a `torch.nn.Module`,
`len(self.module.keys())` for a `dict`, and the sentinel `-1` (after a
logged warning) for anything else.  Never raises. -/
def get_latest_key_count (h : Heap) (r : Resource) : Int :=
  match r.kind with
  | .module => ((h r.ref).length : Int)
  | .dict => ((h r.ref).length : Int)
  | .unsupported => -1

/-- The fields of a `ModelValidChecker` instance. -/
structure ModelValidChecker where
  result : Payload
  module : Resource
  key_count : Int
deriving DecidableEq, Repr

/-- `ModelValidChecker.__init__`: store the result, take the resource
from the first tuple slot (or the result itself), and snapshot
`key_count = get_latest_key_count()` against the current heap. -/
def ModelValidChecker.ofResult (h : Heap) (result : Payload) : ModelValidChecker :=
  { result := result
    module := result.moduleOf
    key_count := get_latest_key_count h result.moduleOf }

/-- `ModelValidChecker.is_valid`: true iff the stored `key_count` equals
the key count freshly derived from the same resource object now. -/
def ModelValidChecker.is_valid (h : Heap) (c : ModelValidChecker) : Bool :=
  c.key_count == get_latest_key_count h c.module

/-- `ModelValidChecker.get_result`: returns the stored result unchanged. -/
def ModelValidChecker.get_result (c : ModelValidChecker) : Payload :=
  c.result

/-! ### Python dict as an association list -/

variable {K : Type}

/-- `d.get(k, None)`: the value of the first (unique) binding of `k`. -/
def mapGet [DecidableEq K] : List (K × ModelValidChecker) → K → Option ModelValidChecker
  | [], _ => none
  | (k, v) :: rest, key => if key = k then some v else mapGet rest key

/-- `d[k] = v`: overwrite the binding of `k` in place if present,
otherwise append a new binding (Python dicts keep insertion order). -/
def mapInsert [DecidableEq K] :
    List (K × ModelValidChecker) → K → ModelValidChecker → List (K × ModelValidChecker)
  | [], key, v => [(key, v)]
  | (k, w) :: rest, key, v =>
    if key = k then (key, v) :: rest else (k, w) :: mapInsert rest key v

/-- `del d[k]`: drop the binding of `k` (the caller must know it is
present; absence raises `KeyError` in Python, handled at use sites). -/
def mapErase [DecidableEq K] :
    List (K × ModelValidChecker) → K → List (K × ModelValidChecker)
  | [], _ => []
  | (k, w) :: rest, key => if key = k then rest else (k, w) :: mapErase rest key

/-- The keys of the dict, in order. -/
def mapKeys (m : List (K × ModelValidChecker)) : List K :=
  m.map Prod.fst

/-- `CACHE_MAXSIZE = 100`. -/
def CACHE_MAXSIZE : Nat := 100

/-- The fields of the `ModelCache` singleton. -/
structure ModelCache (K : Type) where
  valid_checker_map : List (K × ModelValidChecker)
  lru_cache : List K
  maxsize : Nat
deriving Repr, DecidableEq

/-- `ModelCache.__init__`: empty map, empty LRU list, `maxsize = CACHE_MAXSIZE`. -/
def ModelCache.init (K : Type) : ModelCache K :=
  { valid_checker_map := []
    lru_cache := []
    maxsize := CACHE_MAXSIZE }

/-- `ModelCache.cached`: look the key up with `.get(key, None)`; if a
checker is there, return `checker.is_valid()`, else `False`.  Reads only. -/
def ModelCache.cached [DecidableEq K] (h : Heap) (s : ModelCache K) (model_key : K) : Bool :=
  match mapGet s.valid_checker_map model_key with
  | some checker => checker.is_valid h
  | none => false

/-- `ModelCache.register_model`:

1. if `len(lru_cache) >= maxsize` (regardless of whether `model_key` is
   already present), `del_key = lru_cache.pop(0)` and
   `del valid_checker_map[del_key]` (then `gc.collect()` /
   `torch.cuda.empty_cache()`, a no-op on this state); `pop(0)` raises on
   an empty list and `del` raises on a missing key, both embedded as `none`;
2. `valid_checker_map[model_key] = ModelValidChecker(result)`;
3. if `model_key in lru_cache`, remove its old occurrence; then append
   `model_key` at the most-recently-used end. -/
def ModelCache.register_model [DecidableEq K]
    (h : Heap) (s : ModelCache K) (model_key : K) (result : Payload) :
    Option (ModelCache K) :=
  let evicted : Option (ModelCache K) :=
    if s.maxsize ≤ s.lru_cache.length then
      match s.lru_cache with
      | [] => none
      | del_key :: rest =>
        if (mapGet s.valid_checker_map del_key).isSome then
          some { s with
                 lru_cache := rest
                 valid_checker_map := mapErase s.valid_checker_map del_key }
        else none
    else some s
  evicted.map fun s1 =>
    { s1 with
      valid_checker_map :=
        mapInsert s1.valid_checker_map model_key (ModelValidChecker.ofResult h result)
      lru_cache :=
        (if model_key ∈ s1.lru_cache then s1.lru_cache.erase model_key
         else s1.lru_cache) ++ [model_key] }

/-- `ModelCache.get_result`: `lru_cache.remove(model_key)` (raises
`ValueError` when absent, embedded as `none`, with the state untouched),
append `model_key` at the most-recently-used end, then return
`valid_checker_map[model_key].get_result()` (a `KeyError` when the map
misses the key is also `none`). -/
def ModelCache.get_result [DecidableEq K] (s : ModelCache K) (model_key : K) :
    Option (ModelCache K × Payload) :=
  if model_key ∈ s.lru_cache then
    let s1 : ModelCache K :=
      { s with lru_cache := s.lru_cache.erase model_key ++ [model_key] }
    match mapGet s1.valid_checker_map model_key with
    | some checker => some (s1, checker.get_result)
    | none => none
  else none

/-! ### Operation sequences -/

/-- One client operation on the cache; `cached` and `register_model` read
the live resources, so those carry the heap current at call time. -/
inductive Op (K : Type) where
  | isCached (h : Heap) (k : K)
  | insert (h : Heap) (k : K) (p : Payload)
  | retrieve (k : K)

/-- The state after one operation: `cached` reads only; a failing
(`none`) `register_model` or `get_result` leaves the state as Python
leaves it when the exception propagates out of the method. -/
def stepOp [DecidableEq K] (s : ModelCache K) : Op K → ModelCache K
  | .isCached _ _ => s
  | .insert h k p => (s.register_model h k p).getD s
  | .retrieve k =>
    match s.get_result k with
    | some (s1, _) => s1
    | none => s

/-- The state after a sequence of operations. -/
def runOps [DecidableEq K] (s : ModelCache K) (ops : List (Op K)) : ModelCache K :=
  ops.foldl stepOp s

/-- The store invariant: the dict and the LRU list hold the same keys
(as a permutation, hence the same set and the same length), the LRU list
has no duplicates, and the size is bounded by `maxsize`. -/
def Inv [DecidableEq K] (s : ModelCache K) : Prop :=
  (mapKeys s.valid_checker_map).Perm s.lru_cache ∧
  s.lru_cache.Nodup ∧
  s.lru_cache.length ≤ s.maxsize

instance [DecidableEq K] (s : ModelCache K) : Decidable (Inv s) := by
  unfold Inv; infer_instance

/-! ### Lemmas about the dict operations -/

theorem mapGet_isSome_iff [DecidableEq K] (m : List (K × ModelValidChecker)) (k : K) :
    (mapGet m k).isSome = true ↔ k ∈ mapKeys m := by
  induction m with
  | nil => simp [mapGet, mapKeys]
  | cons kv rest ih =>
    obtain ⟨k1, v1⟩ := kv
    by_cases hk : k = k1
    · subst hk; simp [mapGet, mapKeys]
    · simp [mapGet, mapKeys, hk, ih, mapKeys]

theorem mapGet_eq_none_iff [DecidableEq K] (m : List (K × ModelValidChecker)) (k : K) :
    mapGet m k = none ↔ k ∉ mapKeys m := by
  rw [← mapGet_isSome_iff]
  cases mapGet m k <;> simp

theorem mapGet_insert_self [DecidableEq K]
    (m : List (K × ModelValidChecker)) (k : K) (v : ModelValidChecker) :
    mapGet (mapInsert m k v) k = some v := by
  induction m with
  | nil => simp [mapInsert, mapGet]
  | cons kv rest ih =>
    obtain ⟨k1, v1⟩ := kv
    by_cases hk : k = k1
    · subst hk; simp [mapInsert, mapGet]
    · simp [mapInsert, mapGet, hk, ih]

theorem mapGet_insert_ne [DecidableEq K]
    (m : List (K × ModelValidChecker)) (k j : K) (v : ModelValidChecker) (hj : j ≠ k) :
    mapGet (mapInsert m k v) j = mapGet m j := by
  induction m with
  | nil => simp [mapInsert, mapGet, hj]
  | cons kv rest ih =>
    obtain ⟨k1, v1⟩ := kv
    by_cases hk : k = k1
    · subst hk; simp [mapInsert, mapGet, hj]
    · by_cases hjk : j = k1
      · subst hjk; simp [mapInsert, mapGet, hk]
      · simp [mapInsert, mapGet, hk, hjk, ih]

theorem mapKeys_insert_mem [DecidableEq K]
    (m : List (K × ModelValidChecker)) (k : K) (v : ModelValidChecker)
    (hmem : k ∈ mapKeys m) :
    mapKeys (mapInsert m k v) = mapKeys m := by
  induction m with
  | nil => simp [mapKeys] at hmem
  | cons kv rest ih =>
    obtain ⟨k1, v1⟩ := kv
    by_cases hk : k = k1
    · subst hk; simp [mapInsert, mapKeys]
    · simp only [mapKeys, List.map_cons, List.mem_cons] at hmem
      rcases hmem with h1 | h1
      · exact absurd h1 hk
      · have h2 := ih h1
        simp only [mapKeys] at h2 ⊢
        simp only [mapInsert, if_neg hk, List.map_cons]
        rw [h2]

theorem mapKeys_insert_not_mem [DecidableEq K]
    (m : List (K × ModelValidChecker)) (k : K) (v : ModelValidChecker)
    (hmem : k ∉ mapKeys m) :
    mapKeys (mapInsert m k v) = mapKeys m ++ [k] := by
  induction m with
  | nil => simp [mapInsert, mapKeys]
  | cons kv rest ih =>
    obtain ⟨k1, v1⟩ := kv
    simp only [mapKeys, List.map_cons, List.mem_cons, not_or] at hmem
    obtain ⟨hk, hrest⟩ := hmem
    have h2 := ih hrest
    simp only [mapKeys] at h2 ⊢
    simp only [mapInsert, if_neg hk, List.map_cons]
    rw [h2]
    simp

theorem mapKeys_erase [DecidableEq K]
    (m : List (K × ModelValidChecker)) (k : K) :
    mapKeys (mapErase m k) = (mapKeys m).erase k := by
  induction m with
  | nil => simp [mapErase, mapKeys]
  | cons kv rest ih =>
    obtain ⟨k1, v1⟩ := kv
    by_cases hk : k = k1
    · subst hk; simp [mapErase, mapKeys, List.erase_cons_head]
    · have hne : k1 ≠ k := fun h => hk h.symm
      have h2 := ih
      simp only [mapKeys] at h2 ⊢
      simp only [mapErase, if_neg hk, List.map_cons, List.erase_cons]
      rw [h2]
      simp [hne]

theorem mapGet_erase_ne [DecidableEq K]
    (m : List (K × ModelValidChecker)) (k j : K) (hj : j ≠ k) :
    mapGet (mapErase m k) j = mapGet m j := by
  induction m with
  | nil => simp [mapErase]
  | cons kv rest ih =>
    obtain ⟨k1, v1⟩ := kv
    by_cases hk : k = k1
    · subst hk; simp [mapErase, mapGet, hj]
    · by_cases hjk : j = k1
      · subst hjk; simp [mapErase, mapGet, hk]
      · simp [mapErase, mapGet, hk, hjk, ih]

theorem mapGet_erase_self [DecidableEq K]
    (m : List (K × ModelValidChecker)) (k : K) (hnd : (mapKeys m).Nodup) :
    mapGet (mapErase m k) k = none := by
  rw [mapGet_eq_none_iff, mapKeys_erase]
  exact (List.Nodup.mem_erase_iff hnd).not.mpr (by simp)

/-! ### The shape of `register_model` on its two branches -/

theorem register_model_eq_below [DecidableEq K]
    (h : Heap) (s : ModelCache K) (k : K) (p : Payload)
    (hlt : s.lru_cache.length < s.maxsize) :
    s.register_model h k p = some
      { valid_checker_map :=
          mapInsert s.valid_checker_map k (ModelValidChecker.ofResult h p)
        lru_cache :=
          (if k ∈ s.lru_cache then s.lru_cache.erase k else s.lru_cache) ++ [k]
        maxsize := s.maxsize } := by
  unfold ModelCache.register_model
  rw [if_neg (not_le.mpr hlt)]
  rfl

theorem register_model_eq_full [DecidableEq K]
    (h : Heap) (s : ModelCache K) (k : K) (p : Payload) (d : K) (rest : List K)
    (hcap : s.maxsize ≤ s.lru_cache.length) (hlru : s.lru_cache = d :: rest)
    (hd : (mapGet s.valid_checker_map d).isSome = true) :
    s.register_model h k p = some
      { valid_checker_map :=
          mapInsert (mapErase s.valid_checker_map d) k (ModelValidChecker.ofResult h p)
        lru_cache := (if k ∈ rest then rest.erase k else rest) ++ [k]
        maxsize := s.maxsize } := by
  unfold ModelCache.register_model
  rw [hlru, if_pos (by rw [← hlru]; exact hcap)]
  simp [hd]

/-- Effect of the final (overwrite-and-touch) phase of `register_model`
on the invariant components: the map keys stay a permutation of the LRU
list, duplicate-freeness is kept, and the length grows by one exactly
when the key was absent. -/
theorem insert_phase [DecidableEq K]
    (m : List (K × ModelValidChecker)) (l : List K) (k : K) (v : ModelValidChecker)
    (hperm : (mapKeys m).Perm l) (hnd : l.Nodup) :
    (mapKeys (mapInsert m k v)).Perm ((if k ∈ l then l.erase k else l) ++ [k]) ∧
    ((if k ∈ l then l.erase k else l) ++ [k]).Nodup ∧
    ((if k ∈ l then l.erase k else l) ++ [k]).length =
      (if k ∈ l then l.length else l.length + 1) := by
  by_cases hk : k ∈ l
  · have hkeys : k ∈ mapKeys m := hperm.mem_iff.mpr hk
    have hkeq := mapKeys_insert_mem m k v hkeys
    have hpe : l.Perm (l.erase k ++ [k]) :=
      (List.perm_cons_erase hk).trans (List.perm_append_singleton k (l.erase k)).symm
    refine ⟨?_, ?_, ?_⟩
    · rw [if_pos hk, hkeq]
      exact hperm.trans hpe
    · rw [if_pos hk]
      refine ((List.perm_append_singleton k (l.erase k)).nodup_iff).mpr ?_
      rw [List.nodup_cons]
      exact ⟨fun hmem => ((List.Nodup.mem_erase_iff hnd).mp hmem).1 rfl, hnd.erase k⟩
    · rw [if_pos hk, if_pos hk, List.length_append, List.length_singleton,
        List.length_erase_of_mem hk]
      have : 1 ≤ l.length := List.length_pos.mpr (List.ne_nil_of_mem hk)
      omega
  · have hkeys : k ∉ mapKeys m := fun hc => hk (hperm.mem_iff.mp hc)
    have hkeq := mapKeys_insert_not_mem m k v hkeys
    refine ⟨?_, ?_, ?_⟩
    · rw [if_neg hk, hkeq]
      exact hperm.append_right [k]
    · rw [if_neg hk]
      refine ((List.perm_append_singleton k l).nodup_iff).mpr ?_
      rw [List.nodup_cons]
      exact ⟨hk, hnd⟩
    · rw [if_neg hk, if_neg hk, List.length_append, List.length_singleton]

/-- Under the invariant (with a positive `maxsize`), `register_model`
never fails, preserves the invariant and keeps `maxsize`. -/
theorem register_model_some_inv [DecidableEq K]
    (h : Heap) (s : ModelCache K) (k : K) (p : Payload)
    (hInv : Inv s) (hms : 1 ≤ s.maxsize) :
    ∃ s2, s.register_model h k p = some s2 ∧ Inv s2 ∧ s2.maxsize = s.maxsize := by
  obtain ⟨hperm, hnd, hle⟩ := hInv
  by_cases hcap : s.maxsize ≤ s.lru_cache.length
  · have hlen : s.lru_cache.length = s.maxsize := le_antisymm hle hcap
    obtain ⟨d, rest, hlru⟩ : ∃ d rest, s.lru_cache = d :: rest := by
      cases hc : s.lru_cache with
      | nil => rw [hc] at hlen; simp at hlen; omega
      | cons d rest => exact ⟨d, rest, rfl⟩
    have hd : (mapGet s.valid_checker_map d).isSome = true := by
      rw [mapGet_isSome_iff]
      exact hperm.mem_iff.mpr (by rw [hlru]; exact List.mem_cons_self d rest)
    have hperm1 : (mapKeys (mapErase s.valid_checker_map d)).Perm rest := by
      rw [mapKeys_erase]
      have := hperm.erase d
      rw [hlru, List.erase_cons_head] at this
      exact this
    have hnd1 : rest.Nodup := by
      rw [hlru, List.nodup_cons] at hnd
      exact hnd.2
    have hlen1 : rest.length = s.maxsize - 1 := by
      rw [hlru] at hlen; simp at hlen; omega
    obtain ⟨hp2, hn2, hl2⟩ :=
      insert_phase (mapErase s.valid_checker_map d) rest k
        (ModelValidChecker.ofResult h p) hperm1 hnd1
    refine ⟨_, register_model_eq_full h s k p d rest hcap hlru hd, ⟨hp2, hn2, ?_⟩, rfl⟩
    rw [hl2]
    by_cases hkr : k ∈ rest <;> simp [hkr] <;> omega
  · have hlt : s.lru_cache.length < s.maxsize := not_le.mp hcap
    obtain ⟨hp2, hn2, hl2⟩ :=
      insert_phase s.valid_checker_map s.lru_cache k
        (ModelValidChecker.ofResult h p) hperm hnd
    refine ⟨_, register_model_eq_below h s k p hlt, ⟨hp2, hn2, ?_⟩, rfl⟩
    rw [hl2]
    by_cases hkl : k ∈ s.lru_cache <;> simp [hkl] <;> omega

/-! ### The shape of `get_result` -/

theorem get_result_eq_absent [DecidableEq K]
    (s : ModelCache K) (k : K) (hk : k ∉ s.lru_cache) :
    s.get_result k = none := by
  unfold ModelCache.get_result
  rw [if_neg hk]

theorem get_result_eq_present [DecidableEq K]
    (s : ModelCache K) (k : K) (c : ModelValidChecker)
    (hk : k ∈ s.lru_cache) (hc : mapGet s.valid_checker_map k = some c) :
    s.get_result k = some
      ({ s with lru_cache := s.lru_cache.erase k ++ [k] }, c.result) := by
  unfold ModelCache.get_result
  rw [if_pos hk]
  simp [hc, ModelValidChecker.get_result]

/-- Under the invariant, a successful `get_result` preserves it, keeps
the map and `maxsize` unchanged, and only reorders the LRU list. -/
theorem get_result_inv [DecidableEq K]
    (s s1 : ModelCache K) (k : K) (r : Payload)
    (hInv : Inv s) (hres : s.get_result k = some (s1, r)) :
    Inv s1 ∧ s1.valid_checker_map = s.valid_checker_map ∧ s1.maxsize = s.maxsize ∧
    s1.lru_cache = s.lru_cache.erase k ++ [k] := by
  obtain ⟨hperm, hnd, hle⟩ := hInv
  by_cases hk : k ∈ s.lru_cache
  · obtain ⟨c, hc⟩ : ∃ c, mapGet s.valid_checker_map k = some c := by
      have := (mapGet_isSome_iff s.valid_checker_map k).mpr (hperm.mem_iff.mpr hk)
      cases hm : mapGet s.valid_checker_map k with
      | none => rw [hm] at this; simp at this
      | some c => exact ⟨c, rfl⟩
    rw [get_result_eq_present s k c hk hc] at hres
    obtain ⟨hs1, hr⟩ : s1 = { s with lru_cache := s.lru_cache.erase k ++ [k] } ∧ r = c.result := by
      constructor <;> [exact congrArg Prod.fst (Option.some_injective _ hres).symm;
        exact congrArg Prod.snd (Option.some_injective _ hres).symm]
    subst hs1
    have hpe : s.lru_cache.Perm (s.lru_cache.erase k ++ [k]) :=
      (List.perm_cons_erase hk).trans
        (List.perm_append_singleton k (s.lru_cache.erase k)).symm
    refine ⟨⟨hperm.trans hpe, hpe.nodup_iff.mp hnd, ?_⟩, rfl, rfl, rfl⟩
    rw [← hpe.length_eq]
    exact hle
  · rw [get_result_eq_absent s k hk] at hres
    simp at hres

/-! ### Invariant preservation along operation sequences -/

theorem stepOp_inv [DecidableEq K] (s : ModelCache K) (op : Op K)
    (hInv : Inv s) (hms : 1 ≤ s.maxsize) :
    Inv (stepOp s op) ∧ (stepOp s op).maxsize = s.maxsize := by
  cases op with
  | isCached h k => exact ⟨hInv, rfl⟩
  | insert h k p =>
    obtain ⟨s2, hs2, hI2, hm2⟩ := register_model_some_inv h s k p hInv hms
    have hstep : stepOp s (Op.insert h k p) = s2 := by simp [stepOp, hs2]
    rw [hstep]
    exact ⟨hI2, hm2⟩
  | retrieve k =>
    cases hres : s.get_result k with
    | none =>
      have hstep : stepOp s (Op.retrieve k) = s := by simp [stepOp, hres]
      rw [hstep]
      exact ⟨hInv, rfl⟩
    | some pr =>
      obtain ⟨s1, r⟩ := pr
      obtain ⟨hI1, _, hm1, _⟩ := get_result_inv s s1 k r hInv hres
      have hstep : stepOp s (Op.retrieve k) = s1 := by simp [stepOp, hres]
      rw [hstep]
      exact ⟨hI1, hm1⟩

theorem runOps_inv [DecidableEq K] (s : ModelCache K) (ops : List (Op K))
    (hInv : Inv s) (hms : 1 ≤ s.maxsize) :
    Inv (runOps s ops) ∧ (runOps s ops).maxsize = s.maxsize := by
  induction ops generalizing s with
  | nil => exact ⟨hInv, rfl⟩
  | cons op ops ih =>
    obtain ⟨hI1, hm1⟩ := stepOp_inv s op hInv hms
    obtain ⟨hI2, hm2⟩ := ih (stepOp s op) hI1 (hm1 ▸ hms)
    exact ⟨hI2, hm2.trans hm1⟩

theorem Inv_init [DecidableEq K] : Inv (ModelCache.init K) := by
  refine ⟨List.Perm.refl _, List.nodup_nil, ?_⟩
  simp [ModelCache.init, CACHE_MAXSIZE]

theorem register_model_eq_none_empty [DecidableEq K]
    (h : Heap) (s : ModelCache K) (k : K) (p : Payload)
    (hcap : s.maxsize ≤ s.lru_cache.length) (hlru : s.lru_cache = []) :
    s.register_model h k p = none := by
  unfold ModelCache.register_model
  rw [hlru, if_pos (hlru ▸ hcap)]
  rfl

theorem register_model_eq_none_missing [DecidableEq K]
    (h : Heap) (s : ModelCache K) (k : K) (p : Payload) (d : K) (rest : List K)
    (hcap : s.maxsize ≤ s.lru_cache.length) (hlru : s.lru_cache = d :: rest)
    (hd : (mapGet s.valid_checker_map d).isSome = false) :
    s.register_model h k p = none := by
  unfold ModelCache.register_model
  rw [hlru, if_pos (hlru ▸ hcap)]
  simp [hd]

/-- Whatever branch `register_model` takes, on success the key's entry in
the resulting dict is the freshly built checker. -/
theorem register_model_get_self [DecidableEq K]
    (h : Heap) (s s2 : ModelCache K) (k : K) (p : Payload)
    (hs : s.register_model h k p = some s2) :
    mapGet s2.valid_checker_map k = some (ModelValidChecker.ofResult h p) := by
  by_cases hcap : s.maxsize ≤ s.lru_cache.length
  · cases hlru : s.lru_cache with
    | nil =>
      rw [register_model_eq_none_empty h s k p hcap hlru] at hs
      cases hs
    | cons d rest =>
      by_cases hd : (mapGet s.valid_checker_map d).isSome = true
      · rw [register_model_eq_full h s k p d rest hcap hlru hd] at hs
        rw [← Option.some_injective _ hs]
        exact mapGet_insert_self _ k _
      · rw [register_model_eq_none_missing h s k p d rest hcap hlru
          (Bool.not_eq_true _ ▸ hd)] at hs
        cases hs
  · rw [register_model_eq_below h s k p (not_le.mp hcap)] at hs
    rw [← Option.some_injective _ hs]
    exact mapGet_insert_self _ k _

theorem mapInsert_length_mem [DecidableEq K]
    (m : List (K × ModelValidChecker)) (k : K) (v : ModelValidChecker)
    (hmem : k ∈ mapKeys m) :
    (mapInsert m k v).length = m.length := by
  have := mapKeys_insert_mem m k v hmem
  have h1 : (mapKeys (mapInsert m k v)).length = (mapKeys m).length := by rw [this]
  simpa [mapKeys] using h1

theorem mapInsert_length_not_mem [DecidableEq K]
    (m : List (K × ModelValidChecker)) (k : K) (v : ModelValidChecker)
    (hmem : k ∉ mapKeys m) :
    (mapInsert m k v).length = m.length + 1 := by
  have := mapKeys_insert_not_mem m k v hmem
  have h1 : (mapKeys (mapInsert m k v)).length = (mapKeys m ++ [k]).length := by rw [this]
  simpa [mapKeys] using h1

/-- Inserting a block of fresh, pairwise-distinct keys into a store with
enough room appends them to the LRU list in order, grows the dict by one
entry per key, and leaves the entries of untouched keys unchanged. -/
theorem runOps_fresh_inserts [DecidableEq K]
    (ks : List K) (s : ModelCache K) (h : Heap) (p : K → Payload)
    (hInv : Inv s) (hfresh : ∀ k ∈ ks, k ∉ s.lru_cache) (hnd : ks.Nodup)
    (hroom : s.lru_cache.length + ks.length ≤ s.maxsize) :
    (runOps s (ks.map fun k => Op.insert h k (p k))).lru_cache = s.lru_cache ++ ks ∧
    (runOps s (ks.map fun k => Op.insert h k (p k))).maxsize = s.maxsize ∧
    (runOps s (ks.map fun k => Op.insert h k (p k))).valid_checker_map.length =
      s.valid_checker_map.length + ks.length ∧
    (∀ j, j ∉ ks →
      mapGet (runOps s (ks.map fun k => Op.insert h k (p k))).valid_checker_map j =
        mapGet s.valid_checker_map j) := by
  induction ks generalizing s with
  | nil => simp [runOps]
  | cons k ks ih =>
    obtain ⟨hperm, hndl, hle⟩ := hInv
    have hklru : k ∉ s.lru_cache := hfresh k (List.mem_cons_self k ks)
    have hkkeys : k ∉ mapKeys s.valid_checker_map :=
      fun hc => hklru (hperm.mem_iff.mp hc)
    have hlt : s.lru_cache.length < s.maxsize := by
      simp only [List.length_cons] at hroom
      omega
    have hreg := register_model_eq_below h s k (p k) hlt
    rw [if_neg hklru] at hreg
    set s2 : ModelCache K :=
      { valid_checker_map :=
          mapInsert s.valid_checker_map k (ModelValidChecker.ofResult h (p k))
        lru_cache := s.lru_cache ++ [k]
        maxsize := s.maxsize } with hs2def
    have hstep : stepOp s (Op.insert h k (p k)) = s2 := by
      simp [stepOp, hreg]
    have hInv2 : Inv s2 := by
      refine ⟨?_, ?_, ?_⟩
      · show (mapKeys (mapInsert s.valid_checker_map k
          (ModelValidChecker.ofResult h (p k)))).Perm (s.lru_cache ++ [k])
        rw [mapKeys_insert_not_mem _ _ _ hkkeys]
        exact hperm.append_right [k]
      · show (s.lru_cache ++ [k]).Nodup
        refine ((List.perm_append_singleton k s.lru_cache).nodup_iff).mpr ?_
        rw [List.nodup_cons]
        exact ⟨hklru, hndl⟩
      · show (s.lru_cache ++ [k]).length ≤ s.maxsize
        rw [List.length_append, List.length_singleton]
        omega
    have hfresh2 : ∀ j ∈ ks, j ∉ s2.lru_cache := by
      intro j hj
      have hj1 : j ∉ s.lru_cache := hfresh j (List.mem_cons_of_mem k hj)
      have hj2 : j ≠ k := by
        rw [List.nodup_cons] at hnd
        intro hc
        exact hnd.1 (hc ▸ hj)
      show j ∉ s.lru_cache ++ [k]
      simp [hj1, hj2]
    have hnd2 : ks.Nodup := (List.nodup_cons.mp hnd).2
    have hroom2 : s2.lru_cache.length + ks.length ≤ s2.maxsize := by
      show (s.lru_cache ++ [k]).length + ks.length ≤ s.maxsize
      rw [List.length_append, List.length_singleton]
      simp only [List.length_cons] at hroom
      omega
    obtain ⟨ih1, ih2, ih3, ih4⟩ := ih s2 hInv2 hfresh2 hnd2 hroom2
    have hrun : runOps s ((k :: ks).map fun k => Op.insert h k (p k)) =
        runOps s2 (ks.map fun k => Op.insert h k (p k)) := by
      simp only [List.map_cons, runOps, List.foldl_cons, hstep]
    refine ⟨?_, ?_, ?_, ?_⟩
    · rw [hrun, ih1]
      show s.lru_cache ++ [k] ++ ks = s.lru_cache ++ k :: ks
      rw [List.append_assoc, List.singleton_append]
    · rw [hrun, ih2]
    · rw [hrun, ih3]
      show (mapInsert s.valid_checker_map k
          (ModelValidChecker.ofResult h (p k))).length + ks.length =
        s.valid_checker_map.length + (k :: ks).length
      rw [mapInsert_length_not_mem _ _ _ hkkeys, List.length_cons]
      omega
    · intro j hj
      have hj1 : j ∉ ks := fun hc => hj (List.mem_cons_of_mem k hc)
      have hj2 : j ≠ k := fun hc => hj (hc ▸ List.mem_cons_self k ks)
      rw [hrun, ih4 j hj1]
      show mapGet (mapInsert s.valid_checker_map k
        (ModelValidChecker.ofResult h (p k))) j = mapGet s.valid_checker_map j
      exact mapGet_insert_ne _ k j _ hj2

/-! ### Concrete fixtures for closed statements -/

/-- A heap where every object currently has two keys. -/
def heap2 : Heap := fun _ => ["a", "b"]

/-- A heap where every object currently has one key. -/
def heap1 : Heap := fun _ => ["a"]

/-- A payload whose resource is a plain dict (object identity 0). -/
def dictPayload : Payload := Payload.direct { kind := RKind.dict, ref := 0 }

/-- A payload whose resource is neither a `torch.nn.Module` nor a dict
(for example a Python `int`). -/
def unsupportedPayload : Payload :=
  Payload.direct { kind := RKind.unsupported, ref := 0 }

/-- The store after registering `unsupportedPayload` under key 7. -/
def sUnsupported : ModelCache Nat :=
  ((ModelCache.init Nat).register_model heap2 7 unsupportedPayload).getD
    (ModelCache.init Nat)

/-- The store after registering `dictPayload` under key 3 against `heap2`
(so the stored signature is 2). -/
def sOne : ModelCache Nat :=
  ((ModelCache.init Nat).register_model heap2 3 dictPayload).getD
    (ModelCache.init Nat)

/-! ### The claims -/

/-- C1: a payload whose resource is neither a state-mapping-exposing
object nor a mapping is accepted without an error and its derived
signature is the sentinel `-1`, which no real derived count (a length,
hence ≥ 0) ever equals — but, contrary to the claim and to the source's
own comment ("will nevel equal and never cache the result"),
`is_valid` compares the stored `-1` with a freshly recomputed `-1`,
finds them equal, and so every subsequent `cached` call for that key
returns `true`, not `false`.  This theorem evaluates the code at the
failing input. -/
theorem C1_unsupported_sentinel_code_bug :
    ((ModelCache.init Nat).register_model heap2 7 unsupportedPayload).isSome = true ∧
    (ModelValidChecker.ofResult heap2 unsupportedPayload).key_count = -1 ∧
    get_latest_key_count heap2 unsupportedPayload.moduleOf = -1 ∧
    sUnsupported.cached heap2 7 = true ∧
    sUnsupported.cached heap1 7 = true := by
  decide

/-- C3: after any finite sequence of `cached` / `register_model` /
`get_result` operations from a fresh store, the dict and the LRU list
hold exactly the same keys, their lengths agree, and that length never
exceeds the capacity `CACHE_MAXSIZE`. -/
theorem C3_invariant_after_any_sequence (K : Type) [DecidableEq K] (ops : List (Op K)) :
    (∀ k, (mapGet (runOps (ModelCache.init K) ops).valid_checker_map k).isSome = true ↔
        k ∈ (runOps (ModelCache.init K) ops).lru_cache) ∧
    (runOps (ModelCache.init K) ops).valid_checker_map.length =
      (runOps (ModelCache.init K) ops).lru_cache.length ∧
    (runOps (ModelCache.init K) ops).lru_cache.length ≤ CACHE_MAXSIZE := by
  obtain ⟨⟨hperm, hnd, hle⟩, hmax⟩ :=
    runOps_inv (ModelCache.init K) ops Inv_init
      (by norm_num [ModelCache.init, CACHE_MAXSIZE])
  refine ⟨?_, ?_, ?_⟩
  · intro k
    rw [mapGet_isSome_iff]
    exact hperm.mem_iff
  · have hl := hperm.length_eq
    simpa [mapKeys] using hl
  · have hm : (runOps (ModelCache.init K) ops).maxsize = CACHE_MAXSIZE := by
      rw [hmax]; rfl
    rw [← hm]
    exact hle

/-- C6: `cached` returns true exactly when the key has an entry in the
dict whose `is_valid` holds now; a present-but-invalid entry is reported
as a miss but `cached` mutates nothing (it is a pure read, so the step
it induces on the store is the identity). -/
theorem C6_cached_iff_valid_and_pure (K : Type) [DecidableEq K]
    (h : Heap) (s : ModelCache K) (k : K) :
    (s.cached h k = true ↔
      ∃ c, mapGet s.valid_checker_map k = some c ∧ c.is_valid h = true) ∧
    (∀ c, mapGet s.valid_checker_map k = some c → c.is_valid h = false →
      s.cached h k = false) ∧
    stepOp s (Op.isCached h k) = s := by
  refine ⟨?_, ?_, rfl⟩
  · unfold ModelCache.cached
    cases hm : mapGet s.valid_checker_map k with
    | none => simp
    | some c => simp
  · intro c hc hv
    unfold ModelCache.cached
    rw [hc]
    simpa using hv

/-- C9: construction yields an empty dict and an empty LRU list, with
the maximum entry count fixed to the documented default
`CACHE_MAXSIZE = 100`; the constructor takes no capacity argument and no
operation ever changes `maxsize`, so every store that ever exists has
capacity `100 ≥ 1` — a capacity below 1 can never be obtained. -/
theorem C9_construction_defaults (K : Type) [DecidableEq K] :
    (ModelCache.init K).valid_checker_map = [] ∧
    (ModelCache.init K).lru_cache = [] ∧
    (ModelCache.init K).maxsize = CACHE_MAXSIZE ∧
    CACHE_MAXSIZE = 100 ∧
    (∀ ops : List (Op K), (runOps (ModelCache.init K) ops).maxsize = 100 ∧
      1 ≤ (runOps (ModelCache.init K) ops).maxsize) := by
  refine ⟨rfl, rfl, rfl, rfl, fun ops => ?_⟩
  have hmax :=
    (runOps_inv (ModelCache.init K) ops Inv_init
      (by norm_num [ModelCache.init, CACHE_MAXSIZE])).2
  constructor
  · rw [hmax]; rfl
  · rw [hmax]; norm_num [ModelCache.init, CACHE_MAXSIZE]

/-- C5: `is_valid` holds exactly when the signature freshly derived from
the live resource captured at construction equals the stored one; for a
state-mapping-exposing or plain-mapping resource that signature is the
count of names in its current mapping; hence registering a dict payload
with N keys makes `cached` true at once, and mutating the live dict to
fewer than N keys makes `cached` false with no explicit invalidation. -/
theorem C5_validity_gating (K : Type) [DecidableEq K] :
    (∀ (c : ModelValidChecker) (h : Heap),
      c.is_valid h = true ↔ get_latest_key_count h c.module = c.key_count) ∧
    (∀ (h : Heap) (r : Resource), r.kind = RKind.module ∨ r.kind = RKind.dict →
      get_latest_key_count h r = ((h r.ref).length : Int)) ∧
    (∀ (h : Heap) (s s2 : ModelCache K) (k : K) (p : Payload),
      p.moduleOf.kind = RKind.dict →
      s.register_model h k p = some s2 →
      s2.cached h k = true ∧
      (∀ h2 : Heap, (h2 p.moduleOf.ref).length < (h p.moduleOf.ref).length →
        s2.cached h2 k = false)) := by
  refine ⟨?_, ?_, ?_⟩
  · intro c h
    unfold ModelValidChecker.is_valid
    rw [beq_iff_eq, eq_comm]
  · intro h r hr
    unfold get_latest_key_count
    rcases hr with hr | hr <;> rw [hr]
  · intro h s s2 k p hdict hs
    have hget := register_model_get_self h s s2 k p hs
    have hmod : (ModelValidChecker.ofResult h p).module = p.moduleOf := rfl
    have hcount : (ModelValidChecker.ofResult h p).key_count =
        get_latest_key_count h p.moduleOf := rfl
    have hlatest : ∀ h3 : Heap,
        get_latest_key_count h3 p.moduleOf = ((h3 p.moduleOf.ref).length : Int) := by
      intro h3
      unfold get_latest_key_count
      rw [hdict]
    constructor
    · unfold ModelCache.cached
      rw [hget]
      simp [ModelValidChecker.is_valid, ModelValidChecker.ofResult]
    · intro h2 hlt
      unfold ModelCache.cached
      rw [hget]
      simp only [ModelValidChecker.is_valid, hmod, hcount, beq_eq_false_iff_ne, ne_eq]
      rw [hlatest h, hlatest h2]
      intro hcontra
      rw [Int.ofNat_inj.mp hcontra] at hlt
      omega

/-- C5 witness: registering a two-key dict payload against `heap2`
makes `cached` true under `heap2` and false once the live dict shrinks
to one key (`heap1`). -/
theorem C5_validity_gating_witness :
    sOne.cached heap2 3 = true ∧ sOne.cached heap1 3 = false := by
  have hc := (C5_validity_gating Nat).2.2 heap2 (ModelCache.init Nat) sOne 3 dictPayload
    rfl (by decide)
  exact ⟨hc.1, hc.2 heap1 (by decide)⟩

/-- C7: with the invariant, `get_result` on an absent key fails (the
Python `ValueError` from `lru_cache.remove` propagates before any state
is touched, so the store is unchanged), and on a present key it returns
exactly the stored payload, only moves that key to the most-recently-used
end of the LRU list, and changes nothing else (dict and `maxsize`
untouched, LRU key set preserved); `get_result` of a checker built from a
payload is that payload itself. -/
theorem C7_retrieve_contract (K : Type) [DecidableEq K]
    (s : ModelCache K) (k : K) (hInv : Inv s) :
    (mapGet s.valid_checker_map k = none →
      s.get_result k = none ∧ stepOp s (Op.retrieve k) = s) ∧
    (∀ c, mapGet s.valid_checker_map k = some c →
      ∃ s1, s.get_result k = some (s1, c.get_result) ∧
        s1.valid_checker_map = s.valid_checker_map ∧
        s1.maxsize = s.maxsize ∧
        s1.lru_cache = s.lru_cache.erase k ++ [k] ∧
        s1.lru_cache.getLast? = some k ∧
        (∀ j, j ∈ s1.lru_cache ↔ j ∈ s.lru_cache)) ∧
    (∀ (hp : Heap) (p : Payload), (ModelValidChecker.ofResult hp p).get_result = p) := by
  obtain ⟨hperm, hnd, hle⟩ := hInv
  refine ⟨?_, ?_, fun hp p => rfl⟩
  · intro hnone
    have habs : s.get_result k = none := by
      refine get_result_eq_absent s k ?_
      intro hmem
      rw [mapGet_eq_none_iff] at hnone
      exact hnone (hperm.mem_iff.mpr hmem)
    exact ⟨habs, by simp [stepOp, habs]⟩
  · intro c hc
    have hk : k ∈ s.lru_cache := by
      refine hperm.mem_iff.mp ?_
      rw [← mapGet_isSome_iff, hc]
      rfl
    refine ⟨{ s with lru_cache := s.lru_cache.erase k ++ [k] },
      get_result_eq_present s k c hk hc, rfl, rfl, rfl, List.getLast?_concat _, ?_⟩
    intro j
    have hpe : s.lru_cache.Perm (s.lru_cache.erase k ++ [k]) :=
      (List.perm_cons_erase hk).trans
        (List.perm_append_singleton k (s.lru_cache.erase k)).symm
    exact (hpe.mem_iff).symm

/-- C7 witness: on the one-entry store, retrieving the absent key 5
errors out and retrieving the present key 3 yields the stored payload. -/
theorem C7_retrieve_contract_witness :
    sOne.get_result 5 = none ∧
    sOne.get_result 3 =
      some ({ sOne with lru_cache := sOne.lru_cache.erase 3 ++ [3] },
        (ModelValidChecker.ofResult heap2 dictPayload).get_result) := by
  constructor
  · exact ((C7_retrieve_contract Nat sOne 5 (by decide)).1 (by decide)).1
  · obtain ⟨s1, hres, hmap, hmax, hlru, hlast, hmem⟩ :=
      (C7_retrieve_contract Nat sOne 3 (by decide)).2.1
        (ModelValidChecker.ofResult heap2 dictPayload) (by decide)
    rw [hres]
    have hs1 : s1 = { sOne with lru_cache := sOne.lru_cache.erase 3 ++ [3] } := by
      cases s1
      simp_all
    rw [hs1]

/-- C10: `get_result` performs no validity check: a present key is
retrieved and promoted to most-recently-used even when its entry's
`is_valid` is false at that moment. -/
theorem C10_retrieve_ignores_validity (K : Type) [DecidableEq K]
    (s : ModelCache K) (k : K) (c : ModelValidChecker) (h : Heap)
    (hk : k ∈ s.lru_cache) (hc : mapGet s.valid_checker_map k = some c)
    (hinvalid : c.is_valid h = false) :
    s.get_result k =
      some ({ s with lru_cache := s.lru_cache.erase k ++ [k] }, c.result) ∧
    (s.lru_cache.erase k ++ [k]).getLast? = some k :=
  ⟨get_result_eq_present s k c hk hc, List.getLast?_concat _⟩

/-- C10 witness: in `sOne` the entry for key 3 is invalid under `heap1`
(stored signature 2, current count 1), yet `get_result` still returns its
payload and moves the key to the most-recently-used end. -/
theorem C10_retrieve_ignores_validity_witness :
    sOne.get_result 3 =
      some ({ sOne with lru_cache := sOne.lru_cache.erase 3 ++ [3] },
        (ModelValidChecker.ofResult heap2 dictPayload).result) ∧
    (sOne.lru_cache.erase 3 ++ [3]).getLast? = some 3 :=
  C10_retrieve_ignores_validity Nat sOne 3
    (ModelValidChecker.ofResult heap2 dictPayload) heap1
    (by decide) (by decide) (by decide)

set_option maxRecDepth 10000

/-- A freshly built store filled to capacity: the 100 keys `0..99`
inserted in order (so `0` is least recently used). -/
def s100 : ModelCache Nat :=
  runOps (ModelCache.init Nat) ((List.range 100).map fun i => Op.insert heap2 i dictPayload)

/-- C2 counterexample: in the reachable at-capacity store `s100` the key
`1` is already present, yet `register_model` on key `1` still evicts the
least-recently-used key `0` — inserting an already-present key does
remove another entry, contrary to the claim. -/
theorem C2_overwrite_counterexample :
    (1 : Nat) ∈ s100.lru_cache ∧
    (mapGet s100.valid_checker_map 0).isSome = true ∧
    s100.lru_cache.length = s100.maxsize ∧
    (mapGet ((s100.register_model heap2 1 dictPayload).getD s100).valid_checker_map
      0).isSome = false ∧
    (0 : Nat) ∉ ((s100.register_model heap2 1 dictPayload).getD s100).lru_cache := by
  decide

/-- C2 amended: eviction is keyed to capacity alone — `register_model`
evicts the least-recently-used entry whenever `len(lru_cache) >= maxsize`,
regardless of whether the inserted key is already present.  Overwriting a
present key *below* capacity removes no other entry, replaces the entry
in place, keeps both sizes, and moves the key to most-recently-used; but
overwriting a present key at capacity additionally evicts the current
least-recently-used entry (a different key whenever the overwritten key
is not itself the least recently used). -/
theorem C2_insert_eviction_amended (K : Type) [DecidableEq K]
    (h : Heap) (s : ModelCache K) (k : K) (p : Payload)
    (hInv : Inv s) (hk : k ∈ s.lru_cache) :
    (s.lru_cache.length < s.maxsize →
      ∃ s2, s.register_model h k p = some s2 ∧
        s2.lru_cache.length = s.lru_cache.length ∧
        s2.valid_checker_map.length = s.valid_checker_map.length ∧
        (∀ j, j ∈ s2.lru_cache ↔ j ∈ s.lru_cache) ∧
        s2.lru_cache.getLast? = some k ∧
        mapGet s2.valid_checker_map k = some (ModelValidChecker.ofResult h p) ∧
        (∀ j, j ≠ k → mapGet s2.valid_checker_map j = mapGet s.valid_checker_map j)) ∧
    (s.maxsize ≤ s.lru_cache.length →
      ∀ d rest, s.lru_cache = d :: rest →
        ∃ s2, s.register_model h k p = some s2 ∧
          (d ≠ k → mapGet s2.valid_checker_map d = none ∧ d ∉ s2.lru_cache)) := by
  obtain ⟨hperm, hnd, hle⟩ := hInv
  have hkkeys : k ∈ mapKeys s.valid_checker_map := hperm.mem_iff.mpr hk
  constructor
  · intro hlt
    have hreg := register_model_eq_below h s k p hlt
    rw [if_pos hk] at hreg
    have hpe : s.lru_cache.Perm (s.lru_cache.erase k ++ [k]) :=
      (List.perm_cons_erase hk).trans
        (List.perm_append_singleton k (s.lru_cache.erase k)).symm
    refine ⟨_, hreg, ?_, ?_, ?_, ?_, ?_, ?_⟩
    · exact (hpe.length_eq).symm
    · exact mapInsert_length_mem _ k _ hkkeys
    · intro j
      exact (hpe.mem_iff).symm
    · exact List.getLast?_concat _
    · exact mapGet_insert_self _ k _
    · intro j hj
      exact mapGet_insert_ne _ k j _ hj
  · intro hcap d rest hlru
    have hd : (mapGet s.valid_checker_map d).isSome = true := by
      rw [mapGet_isSome_iff]
      exact hperm.mem_iff.mpr (by rw [hlru]; exact List.mem_cons_self d rest)
    have hreg := register_model_eq_full h s k p d rest hcap hlru hd
    refine ⟨_, hreg, ?_⟩
    intro hdk
    have hkeysnd : (mapKeys s.valid_checker_map).Nodup := (hperm.nodup_iff).mpr hnd
    constructor
    · show mapGet (mapInsert (mapErase s.valid_checker_map d) k
        (ModelValidChecker.ofResult h p)) d = none
      rw [mapGet_insert_ne _ k d _ hdk, mapGet_erase_self _ d hkeysnd]
    · show d ∉ (if k ∈ rest then rest.erase k else rest) ++ [k]
      have hdrest : d ∉ rest := by
        rw [hlru, List.nodup_cons] at hnd
        exact hnd.1
      intro hcon
      rcases List.mem_append.mp hcon with hcon | hcon
      · by_cases hkr : k ∈ rest
        · rw [if_pos hkr] at hcon
          exact hdrest (List.mem_of_mem_erase hcon)
        · rw [if_neg hkr] at hcon
          exact hdrest hcon
      · exact hdk (List.mem_singleton.mp hcon)

/-- C2 witness (amended theorem at a concrete input): in the at-capacity
store `s100`, overwriting the present key 1 succeeds and evicts key 0. -/
theorem C2_insert_eviction_amended_witness :
    ∃ s2, s100.register_model heap2 1 dictPayload = some s2 ∧
      ((0 : Nat) ≠ 1 → mapGet s2.valid_checker_map 0 = none ∧ (0 : Nat) ∉ s2.lru_cache) :=
  (C2_insert_eviction_amended Nat heap2 s100 1 dictPayload (by decide) (by decide)).2
    (by decide) 0 ((List.range 100).drop 1) (by decide)

/-- C4: inserting `CACHE_MAXSIZE + 1` pairwise-distinct keys in order
into a fresh store, with no intervening touches, leaves exactly the
last 100 keys (in insertion order) in the LRU list, with the
first-inserted key `k0` evicted and every other inserted key still
present; and the entry count never exceeds the capacity after any
prefix of the sequence. -/
theorem C4_capacity_plus_one_inserts (K : Type) [DecidableEq K]
    (ks : List K) (h : Heap) (p : K → Payload) (k0 : K) (rest : List K)
    (hnd : ks.Nodup) (hlen : ks.length = CACHE_MAXSIZE + 1) (hks : ks = k0 :: rest) :
    (runOps (ModelCache.init K) (ks.map fun k => Op.insert h k (p k))).lru_cache = rest ∧
    mapGet (runOps (ModelCache.init K)
      (ks.map fun k => Op.insert h k (p k))).valid_checker_map k0 = none ∧
    (∀ j ∈ rest, (mapGet (runOps (ModelCache.init K)
      (ks.map fun k => Op.insert h k (p k))).valid_checker_map j).isSome = true) ∧
    (∀ n : Nat, (runOps (ModelCache.init K)
      ((ks.take n).map fun k => Op.insert h k (p k))).valid_checker_map.length ≤
        CACHE_MAXSIZE) := by
  subst hks
  have hms1 : 1 ≤ (ModelCache.init K).maxsize := by
    norm_num [ModelCache.init, CACHE_MAXSIZE]
  have hne : k0 :: rest ≠ [] := List.cons_ne_nil _ _
  have hrestlen : rest.length = CACHE_MAXSIZE := by simpa using hlen
  have hrestne : rest ≠ [] := by
    intro hc
    rw [hc] at hrestlen
    simp [CACHE_MAXSIZE] at hrestlen
  have hklast : (k0 :: rest).getLast hne = rest.getLast hrestne :=
    List.getLast_cons hrestne
  have hfl : (k0 :: rest).dropLast ++ [(k0 :: rest).getLast hne] = k0 :: rest :=
    List.dropLast_append_getLast hne
  have hfrontcons : (k0 :: rest).dropLast = k0 :: rest.dropLast := by
    obtain ⟨r1, rest', rfl⟩ : ∃ r1 rest', rest = r1 :: rest' := by
      cases rest with
      | nil => exact absurd rfl hrestne
      | cons r1 rest' => exact ⟨r1, rest', rfl⟩
    simp [List.dropLast_cons₂]
  have hfrontlen : (k0 :: rest).dropLast.length = CACHE_MAXSIZE := by
    rw [List.length_dropLast]
    simpa using hlen
  have hndfl : ((k0 :: rest).dropLast ++ [(k0 :: rest).getLast hne]).Nodup := by
    rw [hfl]; exact hnd
  have hnodup2 : ((k0 :: rest).getLast hne :: (k0 :: rest).dropLast).Nodup :=
    ((List.perm_append_singleton _ _).nodup_iff).mp hndfl
  have hlastfront : (k0 :: rest).getLast hne ∉ (k0 :: rest).dropLast :=
    (List.nodup_cons.mp hnodup2).1
  have hndfront : (k0 :: rest).dropLast.Nodup := (List.nodup_cons.mp hnodup2).2
  -- running the first CACHE_MAXSIZE inserts just appends them in order
  obtain ⟨hF1, hF2, hF3, _⟩ :=
    runOps_fresh_inserts (k0 :: rest).dropLast (ModelCache.init K) h p Inv_init
      (by intro k hk; simp [ModelCache.init])
      hndfront
      (by simp only [ModelCache.init, List.length_nil, hfrontlen]; omega)
  obtain ⟨hInvF, hmaxF⟩ :=
    runOps_inv (ModelCache.init K)
      ((k0 :: rest).dropLast.map fun k => Op.insert h k (p k)) Inv_init hms1
  set sF : ModelCache K :=
    runOps (ModelCache.init K)
      ((k0 :: rest).dropLast.map fun k => Op.insert h k (p k)) with hsFdef
  obtain ⟨hpermF, hndF, hleF⟩ := hInvF
  have hlruF : sF.lru_cache = (k0 :: rest).dropLast := by
    rw [hF1]; simp [ModelCache.init]
  have hfront : sF.lru_cache = k0 :: rest.dropLast := by rw [hlruF, hfrontcons]
  have hcap : sF.maxsize ≤ sF.lru_cache.length := by
    rw [hlruF, hfrontlen, hmaxF]
    simp [ModelCache.init]
  have hd : (mapGet sF.valid_checker_map k0).isSome = true := by
    rw [mapGet_isSome_iff]
    exact hpermF.mem_iff.mpr (by rw [hfront]; exact List.mem_cons_self _ _)
  -- the final insert is at capacity: it evicts k0 and appends the last key
  have hnotin : (k0 :: rest).getLast hne ∉ rest.dropLast := by
    intro hc
    exact hlastfront (by rw [hfrontcons]; exact List.mem_cons_of_mem k0 hc)
  have hregfull :=
    register_model_eq_full h sF ((k0 :: rest).getLast hne)
      (p ((k0 :: rest).getLast hne)) k0 rest.dropLast hcap hfront hd
  rw [if_neg hnotin] at hregfull
  have hsplit : ((k0 :: rest).map fun k => Op.insert h k (p k)) =
      ((k0 :: rest).dropLast.map fun k => Op.insert h k (p k)) ++
        [Op.insert h ((k0 :: rest).getLast hne) (p ((k0 :: rest).getLast hne))] := by
    conv_lhs => rw [← hfl]
    rw [List.map_append]
    rfl
  have hrunsplit : runOps (ModelCache.init K)
        ((k0 :: rest).map fun k => Op.insert h k (p k)) =
      stepOp sF (Op.insert h ((k0 :: rest).getLast hne)
        (p ((k0 :: rest).getLast hne))) := by
    rw [hsplit]
    unfold runOps
    rw [List.foldl_append]
    rfl
  have hstep : stepOp sF (Op.insert h ((k0 :: rest).getLast hne)
        (p ((k0 :: rest).getLast hne))) =
      { valid_checker_map :=
          mapInsert (mapErase sF.valid_checker_map k0) ((k0 :: rest).getLast hne)
            (ModelValidChecker.ofResult h (p ((k0 :: rest).getLast hne)))
        lru_cache := rest.dropLast ++ [(k0 :: rest).getLast hne]
        maxsize := sF.maxsize } := by
    simp [stepOp, hregfull]
  have hreassemble : rest.dropLast ++ [(k0 :: rest).getLast hne] = rest := by
    rw [hklast]
    exact List.dropLast_append_getLast hrestne
  have hlrufinal : (runOps (ModelCache.init K)
      ((k0 :: rest).map fun k => Op.insert h k (p k))).lru_cache = rest := by
    rw [hrunsplit, hstep]
    exact hreassemble
  have hk0last : k0 ≠ (k0 :: rest).getLast hne := by
    intro hc
    exact hlastfront (by rw [← hc, hfrontcons]; exact List.mem_cons_self _ _)
  refine ⟨hlrufinal, ?_, ?_, ?_⟩
  · rw [hrunsplit, hstep]
    show mapGet (mapInsert (mapErase sF.valid_checker_map k0) _ _) k0 = none
    rw [mapGet_insert_ne _ _ k0 _ hk0last]
    exact mapGet_erase_self _ k0 ((hpermF.nodup_iff).mpr hndF)
  · intro j hj
    obtain ⟨⟨hpermAll, _, _⟩, _⟩ :=
      runOps_inv (ModelCache.init K)
        ((k0 :: rest).map fun k => Op.insert h k (p k)) Inv_init hms1
    rw [mapGet_isSome_iff]
    exact hpermAll.mem_iff.mpr (by rw [hlrufinal]; exact hj)
  · intro n
    obtain ⟨⟨hpermN, _, hleN⟩, hmaxN⟩ :=
      runOps_inv (ModelCache.init K)
        (((k0 :: rest).take n).map fun k => Op.insert h k (p k)) Inv_init hms1
    have hlenN : (runOps (ModelCache.init K)
        (((k0 :: rest).take n).map fun k => Op.insert h k (p k))).valid_checker_map.length =
        (runOps (ModelCache.init K)
          (((k0 :: rest).take n).map fun k => Op.insert h k (p k))).lru_cache.length := by
      have := hpermN.length_eq
      simpa [mapKeys] using this
    rw [hlenN]
    rw [hmaxN] at hleN
    simpa [ModelCache.init] using hleN

/-- C4 witness: the theorem applied to the 101 distinct keys `0..100`
inserted in order into a fresh store — key 0 is evicted and the LRU list
ends as the keys `1..100`. -/
theorem C4_capacity_plus_one_inserts_witness :
    (runOps (ModelCache.init Nat)
      ((List.range 101).map fun k => Op.insert heap2 k dictPayload)).lru_cache =
      (List.range 101).drop 1 ∧
    mapGet (runOps (ModelCache.init Nat)
      ((List.range 101).map fun k => Op.insert heap2 k dictPayload)).valid_checker_map 0 =
      none := by
  have happ := C4_capacity_plus_one_inserts Nat (List.range 101) heap2
    (fun _ => dictPayload) 0 ((List.range 101).drop 1)
    (List.nodup_range 101) (by simp [CACHE_MAXSIZE]) (by decide)
  exact ⟨happ.1, happ.2.1⟩

/-- C8: in a store at capacity, retrieving a present key `k` moves it to
the most-recently-used end, so a subsequent insert of a distinct absent
key `j` evicts the key that is least recently used after the promotion —
the head of the promoted order, which is never `k` itself — while both
`k` and `j` remain present afterwards. -/
theorem C8_promotion_protects_key (K : Type) [DecidableEq K]
    (s : ModelCache K) (k j : K) (h : Heap) (p : Payload)
    (hInv : Inv s) (hmax : s.maxsize = CACHE_MAXSIZE)
    (hfull : s.lru_cache.length = s.maxsize)
    (hk : k ∈ s.lru_cache) (hj : j ∉ s.lru_cache) :
    ∃ s1 r, s.get_result k = some (s1, r) ∧
      s1.lru_cache.getLast? = some k ∧
      ∃ d rest1, s1.lru_cache = d :: rest1 ∧ d ≠ k ∧
        ∃ s2, s1.register_model h j p = some s2 ∧
          mapGet s2.valid_checker_map d = none ∧ d ∉ s2.lru_cache ∧
          k ∈ s2.lru_cache ∧ j ∈ s2.lru_cache := by
  obtain ⟨hperm, hnd, hle⟩ := hInv
  obtain ⟨c, hc⟩ : ∃ c, mapGet s.valid_checker_map k = some c := by
    have h1 := (mapGet_isSome_iff s.valid_checker_map k).mpr (hperm.mem_iff.mpr hk)
    cases hm : mapGet s.valid_checker_map k with
    | none => rw [hm] at h1; simp at h1
    | some c => exact ⟨c, rfl⟩
  have hres := get_result_eq_present s k c hk hc
  set s1 : ModelCache K := { s with lru_cache := s.lru_cache.erase k ++ [k] } with hs1def
  have hlenpos : 1 ≤ s.lru_cache.length :=
    List.length_pos.mpr (List.ne_nil_of_mem hk)
  have hlenerase : (s.lru_cache.erase k).length = s.lru_cache.length - 1 :=
    List.length_erase_of_mem hk
  have herasene : s.lru_cache.erase k ≠ [] := by
    intro hcon
    rw [hcon] at hlenerase
    rw [hfull, hmax] at hlenerase
    simp [CACHE_MAXSIZE] at hlenerase
  obtain ⟨d, rest0, hdecomp⟩ : ∃ d rest0, s.lru_cache.erase k = d :: rest0 := by
    cases hco : s.lru_cache.erase k with
    | nil => exact absurd hco herasene
    | cons d r => exact ⟨d, r, rfl⟩
  have hs1lru : s1.lru_cache = d :: (rest0 ++ [k]) := by
    show s.lru_cache.erase k ++ [k] = _
    rw [hdecomp, List.cons_append]
  have hdmem : d ∈ s.lru_cache.erase k := by
    rw [hdecomp]; exact List.mem_cons_self _ _
  have hdk : d ≠ k := ((List.Nodup.mem_erase_iff hnd).mp hdmem).1
  have hdlru : d ∈ s.lru_cache := ((List.Nodup.mem_erase_iff hnd).mp hdmem).2
  obtain ⟨⟨hperm1, hnd1, hle1⟩, hmap1, hmax1, _⟩ :=
    get_result_inv s s1 k c.result ⟨hperm, hnd, hle⟩ hres
  have hlen1 : s1.lru_cache.length = s.lru_cache.length := by
    show (s.lru_cache.erase k ++ [k]).length = _
    rw [List.length_append, List.length_singleton, hlenerase]
    omega
  have hcap1 : s1.maxsize ≤ s1.lru_cache.length := by
    rw [hlen1, hmax1, hfull]
  have hd1 : (mapGet s1.valid_checker_map d).isSome = true := by
    rw [hmap1, mapGet_isSome_iff]
    exact hperm.mem_iff.mpr hdlru
  have hregfull :=
    register_model_eq_full h s1 j p d (rest0 ++ [k]) hcap1 hs1lru hd1
  have hjk : j ≠ k := fun hcon => hj (hcon ▸ hk)
  have hjd : j ≠ d := fun hcon => hj (hcon ▸ hdlru)
  have hjrest : j ∉ rest0 ++ [k] := by
    intro hcon
    rcases List.mem_append.mp hcon with hcon | hcon
    · exact hj (List.mem_of_mem_erase (by rw [hdecomp]; exact List.mem_cons_of_mem d hcon))
    · exact hjk (List.mem_singleton.mp hcon)
  rw [if_neg hjrest] at hregfull
  have hdrest0 : d ∉ rest0 := by
    have hnde : (s.lru_cache.erase k).Nodup := hnd.erase k
    rw [hdecomp, List.nodup_cons] at hnde
    exact hnde.1
  refine ⟨s1, c.result, hres, ?_, d, rest0 ++ [k], hs1lru, hdk, _, hregfull, ?_, ?_, ?_, ?_⟩
  · show (s.lru_cache.erase k ++ [k]).getLast? = some k
    exact List.getLast?_concat _
  · show mapGet (mapInsert (mapErase s1.valid_checker_map d) j
      (ModelValidChecker.ofResult h p)) d = none
    rw [mapGet_insert_ne _ j d _ (fun hcon => hjd hcon.symm)]
    refine mapGet_erase_self _ d ?_
    rw [hmap1]
    exact (hperm.nodup_iff).mpr hnd
  · show d ∉ (rest0 ++ [k]) ++ [j]
    intro hcon
    rcases List.mem_append.mp hcon with hcon | hcon
    · rcases List.mem_append.mp hcon with hcon | hcon
      · exact hdrest0 hcon
      · exact hdk (List.mem_singleton.mp hcon)
    · exact hjd ((List.mem_singleton.mp hcon).symm)
  · show k ∈ (rest0 ++ [k]) ++ [j]
    exact List.mem_append.mpr (Or.inl (List.mem_append.mpr (Or.inr (List.mem_singleton.mpr rfl))))
  · show j ∈ (rest0 ++ [k]) ++ [j]
    exact List.mem_append.mpr (Or.inr (List.mem_singleton.mpr rfl))

/-- C8 witness: in the at-capacity store `s100`, touching key 50 and then
inserting the absent key 1000 evicts the post-promotion
least-recently-used key (which is not 50), and both 50 and 1000 stay. -/
theorem C8_promotion_protects_key_witness :
    ∃ s1 r, s100.get_result 50 = some (s1, r) ∧
      s1.lru_cache.getLast? = some 50 ∧
      ∃ d rest1, s1.lru_cache = d :: rest1 ∧ d ≠ 50 ∧
        ∃ s2, s1.register_model heap2 1000 dictPayload = some s2 ∧
          mapGet s2.valid_checker_map d = none ∧ d ∉ s2.lru_cache ∧
          (50 : Nat) ∈ s2.lru_cache ∧ (1000 : Nat) ∈ s2.lru_cache :=
  C8_promotion_protects_key Nat s100 50 1000 heap2 dictPayload (by decide) (by decide)
    (by decide) (by decide) (by decide)

end ModelCacheRepo
